import Mathlib

/-!
Verification development for the MP data-aggregation repository.

Shallow embedding of the entity-resolution / record-merging core:

* `normalizeNameForComparison` embeds `src/utils/name-utils.js` (a chain of
  JavaScript regex `replace` calls on the uppercased string; each title
  pattern such as `/HON\.?\s*/` removes the first, possibly embedded,
  occurrence of the token followed by an optional period and whitespace).
* `MP`, `MP.updateFrom`, `MP.getMissingFields` embed `src/models/mp.js`.
* `buildByName`/`buildByConst`/`buildByCounty`/`findMatch`/`scraperMerge`
  embed the matching cascade and merge step of
  `WikipediaScraper.mergeWithExistingData` in `wikipedia-mps-scraper.js`.
* `updateMissingFields` embeds the Wikipedia field-backfill routine.

Strings are modelled as `List Char` (`Str`).  JavaScript truthiness of a
string is emptiness (`isEmpty`); `undefined` values coalesce to the empty
string, and case conversion is modelled for ASCII letters, matching
`String.prototype.toUpperCase`/`toLowerCase` on the ASCII inputs the
system processes.
-/

/-- Strings of the JavaScript program, modelled as lists of characters. -/
abbrev Str := List Char

/-- The character class `\s` of JavaScript regular expressions (also the set
stripped by `String.prototype.trim`). -/
def isJsSpace (c : Char) : Bool :=
  c = ' ' || c = '\t' || c = '\n' || c.toNat = 11 || c.toNat = 12 || c = '\r' ||
  c.toNat = 0xa0 || c.toNat = 0x1680 || (0x2000 ≤ c.toNat && c.toNat ≤ 0x200a) ||
  c.toNat = 0x2028 || c.toNat = 0x2029 || c.toNat = 0x202f || c.toNat = 0x205f ||
  c.toNat = 0x3000 || c.toNat = 0xfeff

/-- ASCII upper-casing of one character, as `toUpperCase` acts on ASCII. -/
def jsUpperChar (c : Char) : Char :=
  if 97 ≤ c.toNat ∧ c.toNat ≤ 122 then Char.ofNat (c.toNat - 32) else c

/-- ASCII lower-casing of one character, as `toLowerCase` acts on ASCII. -/
def jsLowerChar (c : Char) : Char :=
  if 65 ≤ c.toNat ∧ c.toNat ≤ 90 then Char.ofNat (c.toNat + 32) else c

theorem toNat_ofNat_valid (n : Nat) (h : n.isValidChar) : (Char.ofNat n).toNat = n := by
  rw [Char.ofNat, dif_pos h]
  rfl

theorem jsUpperChar_idem (c : Char) : jsUpperChar (jsUpperChar c) = jsUpperChar c := by
  unfold jsUpperChar
  by_cases h : 97 ≤ c.toNat ∧ c.toNat ≤ 122
  · have hv : ((c.toNat - 32) : Nat).isValidChar := by
      left
      omega
    rw [if_pos h, toNat_ofNat_valid _ hv, if_neg (by omega)]
  · rw [if_neg h, if_neg h]

/-- Strip a literal character sequence from the front of a string, returning
the remainder on success. -/
def dropLit : Str → Str → Option Str
  | [], s => some s
  | _ :: _, [] => none
  | t :: ts, c :: cs => if c = t then dropLit ts cs else none

/-- Consume the regex tail `\.?\s*`: an optional period, then greedy
whitespace.  Greediness is exact here since no later literal can match a
period or whitespace character. -/
def dropDotSpaces : Str → Str
  | '.' :: rest => rest.dropWhile isJsSpace
  | s => s.dropWhile isJsSpace

/-- Match `TOK\.?\s*` at the start of the string (the shape of every title
pattern such as `/HON\.?\s*/` or `/DR\.?\s*/`). -/
def matchToken (tok : Str) (s : Str) : Option Str :=
  match dropLit tok s with
  | some rest => some (dropDotSpaces rest)
  | none => none

/-- Match `COL\.?\s*RTD\.?\s*` at the start of the string. -/
def matchColRtd (s : Str) : Option Str :=
  match dropLit ['C', 'O', 'L'] s with
  | none => none
  | some r1 =>
    match dropLit ['R', 'T', 'D'] (dropDotSpaces r1) with
    | none => none
    | some r2 => some (dropDotSpaces r2)

/-- Scan for the first `)` (non-greedy `.*?`), where `.` does not cross a
JavaScript line terminator. -/
def scanClose : Str → Option Str
  | [] => none
  | c :: rest =>
    if c = ')' then some rest
    else if c = '\n' || c = '\r' || c.toNat = 0x2028 || c.toNat = 0x2029 then none
    else scanClose rest

/-- Match `\(.*?\)` at the start of the string. -/
def matchParen : Str → Option Str
  | [] => none
  | c :: rest => if c = '(' then scanClose rest else none

/-- `String.prototype.replace` with a non-global regex and empty replacement:
delete the leftmost match.  `m` matches at the current position and returns
the remainder after the match. -/
def replaceFirst (m : Str → Option Str) : Str → Str
  | [] =>
    match m [] with
    | some r => r
    | none => []
  | c :: cs =>
    match m (c :: cs) with
    | some r => r
    | none => c :: replaceFirst m cs

/-- `replace(/,/g, ' ')` acts on each character. -/
def commaToSpace (c : Char) : Char :=
  if c = ',' then ' ' else c

/-- `replace(/\s+/g, ' ')`: collapse every whitespace run to one space.  The
flag records whether we are inside a run. -/
def collapseWsAux (inWs : Bool) : Str → Str
  | [] => []
  | c :: cs =>
    if isJsSpace c then
      if inWs then collapseWsAux true cs else ' ' :: collapseWsAux true cs
    else c :: collapseWsAux false cs

/-- Remove trailing whitespace. -/
def trimEnd : Str → Str
  | [] => []
  | c :: cs => if trimEnd cs = [] && isJsSpace c then [] else c :: trimEnd cs

/-- `String.prototype.trim`: drop leading and trailing whitespace. -/
def trimWs (s : Str) : Str :=
  trimEnd (s.dropWhile isJsSpace)

/-- `normalizeNameForComparison` from `src/utils/name-utils.js`: uppercase,
strip the first occurrence of each title pattern in source order, remove the
first parenthetical, replace commas by spaces, collapse whitespace, trim. -/
def normalizeNameForComparison (s : Str) : Str :=
  let s1 := s.map jsUpperChar
  let s2 := replaceFirst (matchToken ['H', 'O', 'N']) s1
  let s3 := replaceFirst matchParen s2
  let s4 := replaceFirst (matchToken ['D', 'R']) s3
  let s5 := replaceFirst (matchToken ['P', 'R', 'O', 'F']) s4
  let s6 := replaceFirst (matchToken ['E', 'N', 'G']) s5
  let s7 := replaceFirst (matchToken ['A', 'M', 'B']) s6
  let s8 := replaceFirst (matchToken ['C', 'P', 'A']) s7
  let s9 := replaceFirst matchColRtd s8
  let s10 := s9.map commaToSpace
  let s11 := collapseWsAux false s10
  trimWs s11

example : normalizeNameForComparison "ANDREW".data = "ANEW".data := by decide
example : normalizeNameForComparison "HON. John Mwangi".data = "JOHN MWANGI".data := by decide
example : normalizeNameForComparison "HONHON".data = "HON".data := by decide
example : normalizeNameForComparison "Dr. Jane (MS.) Wanjiku, CBS".data = "JANE WANJIKU CBS".data := by decide
example : normalizeNameForComparison "Col. Rtd. John".data = "JOHN".data := by decide

/-- First-occurrence deduplication with a seen-accumulator, the order in
which `new Set([...])` enumerates its elements. -/
def dedupGo {α : Type} [DecidableEq α] (seen : List α) : List α → List α
  | [] => []
  | x :: xs => if x ∈ seen then dedupGo seen xs else x :: dedupGo (x :: seen) xs

/-- `[...new Set(l)]`: keep the first occurrence of each element. -/
def jsSetDedup {α : Type} [DecidableEq α] (l : List α) : List α :=
  dedupGo [] l

/-- First-occurrence deduplication as the spec describes it: keep each head
and drop its later duplicates.  Stated independently of `jsSetDedup` so the
two can be compared. -/
def dedupSpec {α : Type} [DecidableEq α] : List α → List α
  | [] => []
  | x :: xs => x :: (dedupSpec xs).filter (fun y => decide (y ≠ x))

/-- The entity record produced by the `MP` class constructor
(`src/models/mp.js`). -/
structure MP where
  name : Str
  gender : Str
  constituency : Str
  county : Str
  party : Str
  status : Str
  profilePictureUrl : Str
  email : Str
  phone : Str
  committees : List Str
  committeeDetails : List Str
  employmentHistory : List Str
  leadershipPosition : Str
  wikipediaUrl : Str
  wikipediaData : List (Str × Str)
  newsMentions : List Str
  dataSources : List Str
deriving DecidableEq

/-- `new MP({})`: every constructor default (`''`, `'Unknown'`,
`'Not available'`, `[]`, `{}`). -/
def defMP : MP where
  name := []
  gender := "Unknown".data
  constituency := []
  county := []
  party := []
  status := []
  profilePictureUrl := []
  email := "Not available".data
  phone := "Not available".data
  committees := []
  committeeDetails := []
  employmentHistory := []
  leadershipPosition := []
  wikipediaUrl := []
  wikipediaData := []
  newsMentions := []
  dataSources := []

/-- An incoming record passed to `MP.updateFrom`: a JavaScript object whose
absent keys are `none`.  A present empty object or array is `some []`
(truthy in JavaScript). -/
structure SourceData where
  name : Option Str := none
  gender : Option Str := none
  constituency : Option Str := none
  county : Option Str := none
  party : Option Str := none
  status : Option Str := none
  profilePictureUrl : Option Str := none
  email : Option Str := none
  phone : Option Str := none
  leadershipPosition : Option Str := none
  wikipediaUrl : Option Str := none
  committees : Option (List Str) := none
  employmentHistory : Option (List Str) := none
  newsMentions : Option (List Str) := none
  wikipediaData : Option (List (Str × Str)) := none

/-- One step of the scalar loop in `updateFrom`:
`if (!this[key] && value) this[key] = value` for a present key. -/
def updScalar (cur : Str) (v : Option Str) : Str :=
  match v with
  | none => cur
  | some w => if cur.isEmpty && !w.isEmpty then w else cur

/-- Array merge in `updateFrom`:
`[...new Set([...(this[k] || []), ...sourceData[k]])]` when the key is
present. -/
def mergeArr (cur : List Str) (v : Option (List Str)) : List Str :=
  match v with
  | none => cur
  | some l => jsSetDedup (cur ++ l)

/-- Generic association-list lookup (property read on a JavaScript object
used as a map). -/
def lookupAssoc {α : Type} : List (Str × α) → Str → Option α
  | [], _ => none
  | (k, v) :: rest, key => if key = k then some v else lookupAssoc rest key

/-- Property write on a JavaScript object used as a map: overwrite in place
(keeping the key's first-insertion position) or append. -/
def insertAssoc {α : Type} : List (Str × α) → Str → α → List (Str × α)
  | [], k, v => [(k, v)]
  | (k0, v0) :: rest, k, v =>
    if k0 = k then (k0, v) :: rest else (k0, v0) :: insertAssoc rest k v

/-- Object spread `{ ...a, ...b }`: keys of `a` in order with values
overridden by `b`, then the new keys of `b`. -/
def objMerge (a b : List (Str × Str)) : List (Str × Str) :=
  a.map (fun kv =>
    match lookupAssoc b kv.1 with
    | some w => (kv.1, w)
    | none => kv) ++
  b.filter (fun kv => (lookupAssoc a kv.1).isNone)

/-- `MP.updateFrom(sourceData, sourceName)` from `src/models/mp.js`: fill
empty scalar fields, record the source, union the three list fields through
a `Set`, then merge `wikipediaData` by object spread (the final
`this.wikipediaUrl || sourceData.wikipediaUrl` coalesces an absent incoming
URL to the empty string). -/
def MP.updateFrom (e : MP) (src : SourceData) (sourceName : Str) : MP :=
  let e1 : MP :=
    { e with
      name := updScalar e.name src.name
      gender := updScalar e.gender src.gender
      constituency := updScalar e.constituency src.constituency
      county := updScalar e.county src.county
      party := updScalar e.party src.party
      status := updScalar e.status src.status
      profilePictureUrl := updScalar e.profilePictureUrl src.profilePictureUrl
      email := updScalar e.email src.email
      phone := updScalar e.phone src.phone
      leadershipPosition := updScalar e.leadershipPosition src.leadershipPosition
      wikipediaUrl := updScalar e.wikipediaUrl src.wikipediaUrl }
  let e2 : MP :=
    { e1 with
      dataSources :=
        if sourceName ∈ e1.dataSources then e1.dataSources
        else e1.dataSources ++ [sourceName] }
  let e3 : MP :=
    { e2 with
      committees := mergeArr e2.committees src.committees
      employmentHistory := mergeArr e2.employmentHistory src.employmentHistory
      newsMentions := mergeArr e2.newsMentions src.newsMentions }
  match src.wikipediaData with
  | none => e3
  | some wd =>
    { e3 with
      wikipediaData := objMerge e3.wikipediaData wd
      wikipediaUrl :=
        if !e3.wikipediaUrl.isEmpty then e3.wikipediaUrl
        else (src.wikipediaUrl.getD []) }

/-- `MP.getMissingFields()` from `src/models/mp.js`. -/
def MP.getMissingFields (e : MP) : List Str :=
  let m0 : List Str := []
  let m1 := if e.gender.isEmpty || e.gender = "Unknown".data then m0 ++ ["gender".data] else m0
  let m2 := if e.constituency.isEmpty then m1 ++ ["constituency".data] else m1
  let m3 := if e.county.isEmpty then m2 ++ ["county".data] else m2
  let m4 := if e.party.isEmpty then m3 ++ ["party".data] else m3
  let m5 := if e.profilePictureUrl.isEmpty then m4 ++ ["profilePictureUrl".data] else m4
  let m6 := if e.committees.isEmpty then m5 ++ ["committees".data] else m5
  if e.email.isEmpty || e.email = "Not available".data then m6 ++ ["email".data] else m6

/-- `constituency.toUpperCase().trim()` / `county.toUpperCase().trim()`. -/
def upperTrim (s : Str) : Str :=
  trimWs (s.map jsUpperChar)

/-- Append an MP to a county's bucket (`mpsByCounty[key].push(mp)`). -/
def insertMulti : List (Str × List MP) → Str → MP → List (Str × List MP)
  | [], k, v => [(k, [v])]
  | (k0, l) :: rest, k, v =>
    if k0 = k then (k0, l ++ [v]) :: rest else (k0, l) :: insertMulti rest k v

/-- The `mpsByName` index of `mergeWithExistingData`: one pass over the
existing MPs, keyed by normalized name, later entries overwriting earlier
ones in place. -/
def buildByName (mps : List MP) : List (Str × MP) :=
  mps.foldl (fun m mp => insertAssoc m (normalizeNameForComparison mp.name) mp) []

/-- The `mpsByConstituency` index: only MPs with a truthy constituency,
keyed by the uppercased, trimmed constituency, later entries overwriting
earlier ones. -/
def buildByConst (mps : List MP) : List (Str × MP) :=
  mps.foldl
    (fun m mp =>
      if mp.constituency.isEmpty then m
      else insertAssoc m (upperTrim mp.constituency) mp) []

/-- The `mpsByCounty` index: per-county buckets in registration order. -/
def buildByCounty (mps : List MP) : List (Str × List MP) :=
  mps.foldl
    (fun m mp =>
      if mp.county.isEmpty then m
      else insertMulti m (upperTrim mp.county) mp) []

/-- `name.split(' ')` of JavaScript: split on single spaces, keeping empty
pieces (`''.split(' ')` is `['']`). -/
def splitSpAux (cur : Str) : Str → List Str
  | [] => [cur.reverse]
  | c :: cs => if c = ' ' then cur.reverse :: splitSpAux [] cs else splitSpAux (c :: cur) cs

/-- `s.split(' ')`. -/
def splitSp (s : Str) : List Str :=
  splitSpAux [] s

/-- Does `needle` start at the head of `s`? -/
def startsWithStr (needle s : Str) : Bool :=
  match needle, s with
  | [], _ => true
  | _ :: _, [] => false
  | t :: ts, c :: cs => c = t && startsWithStr ts cs

/-- `s.includes(needle)` of JavaScript strings: substring containment. -/
def containsSub (s needle : Str) : Bool :=
  match s with
  | [] => needle.isEmpty
  | _ :: cs => startsWithStr needle s || containsSub cs needle

/-- Significant tokens of the fuzzy tier:
`normalizedName.split(' ').filter(part => part.length > 3)`. -/
def sigTokens (nn : Str) : List Str :=
  (splitSp nn).filter (fun t => 3 < t.length)

/-- Per-entity test of the fuzzy tier: the number of significant candidate
tokens that are a substring or superstring of some token of the entity's
key reaches `Math.ceil(sig.length / 2)` (which is `(sig.length + 1) / 2` on
naturals). -/
def fuzzyHit (sig : List Str) (entKey : Str) : Bool :=
  let parts := splitSp entKey
  let matching := sig.filter (fun p => parts.any (fun q => containsSub q p || containsSub p q))
  Nat.ble ((sig.length + 1) / 2) matching.length

/-- The fuzzy-tier loop over `Object.entries(mpsByName)`, first hit wins. -/
def fuzzyScan (sig : List Str) : List (Str × MP) → Option MP
  | [] => none
  | (k, mp) :: rest => if fuzzyHit sig k then some mp else fuzzyScan sig rest

/-- Per-entity test of the county tier: at least two tokens of the
candidate's key equal a token of the entity's key and are longer than two
characters. -/
def countyHit (nn : Str) (countyMP : MP) : Bool :=
  let nameParts := splitSp nn
  let mpNameParts := splitSp (normalizeNameForComparison countyMP.name)
  let matching := nameParts.filter (fun p => mpNameParts.any (fun q => q = p && 2 < p.length))
  Nat.ble 2 matching.length

/-- The county-tier loop, first hit wins. -/
def countyScan (nn : Str) : List MP → Option MP
  | [] => none
  | mp :: rest => if countyHit nn mp then some mp else countyScan nn rest

/-- Constituency tier: consulted only when the record carries a truthy
constituency. -/
def constStep (idxC : List (Str × MP)) (w : MP) : Option MP :=
  if w.constituency.isEmpty then none
  else lookupAssoc idxC (upperTrim w.constituency)

/-- County tier: consulted only when the record carries a truthy county. -/
def countyStep (idxK : List (Str × List MP)) (w : MP) (nn : Str) : Option MP :=
  if w.county.isEmpty then none
  else countyScan nn ((lookupAssoc idxK (upperTrim w.county)).getD [])

/-- Confidence tier of a match in `mergeWithExistingData`. -/
inductive MatchTier where
  | direct
  | constit
  | countyFuzzy
  | fuzzy
deriving DecidableEq

/-- The matching cascade of `mergeWithExistingData` for one Wikipedia
record: exact normalized name, then constituency, then county plus partial
name, then fuzzy name parts; `none` means the record is appended as a new
MP. -/
def findMatch (mps : List MP) (w : MP) : Option (MP × MatchTier) :=
  let nn := normalizeNameForComparison w.name
  match lookupAssoc (buildByName mps) nn with
  | some e => some (e, MatchTier.direct)
  | none =>
    match constStep (buildByConst mps) w with
    | some e => some (e, MatchTier.constit)
    | none =>
      match countyStep (buildByCounty mps) w nn with
      | some e => some (e, MatchTier.countyFuzzy)
      | none =>
        match fuzzyScan (sigTokens nn) (buildByName mps) with
        | some e => some (e, MatchTier.fuzzy)
        | none => none

/-- The merge step of `mergeWithExistingData` once a match is found.
`existingMP.wikipediaData = wikiMP.wikipediaData || {}` discards the
existing object whether the incoming one is a (truthy) object or absent;
the remaining fields use the fill-if-missing pattern, and `'wikipedia'` is
appended to `dataSources` when absent (the `['parliament']` default only
fires for records without a `dataSources` array, which the model makes
total). -/
def scraperMerge (e w : MP) : MP :=
  let e1 : MP :=
    { e with
      wikipediaData := w.wikipediaData
      wikipediaUrl := if !e.wikipediaUrl.isEmpty then e.wikipediaUrl else w.wikipediaUrl }
  let e2 : MP :=
    { e1 with
      constituency :=
        if e1.constituency.isEmpty && !w.constituency.isEmpty then w.constituency
        else e1.constituency
      county :=
        if e1.county.isEmpty && !w.county.isEmpty then w.county else e1.county
      party :=
        if e1.party.isEmpty && !w.party.isEmpty then w.party else e1.party
      gender :=
        if (e1.gender.isEmpty || e1.gender = "Unknown".data) && !w.gender.isEmpty then w.gender
        else e1.gender }
  { e2 with
    dataSources :=
      if "wikipedia".data ∈ e2.dataSources then e2.dataSources
      else e2.dataSources ++ ["wikipedia".data] }

/-- Infobox sub-object consumed by `updateMissingFields` (keys
`constituency` and `Political party`). -/
structure Infobox where
  constituency : Str
  politicalParty : Str
deriving DecidableEq

/-- `wikipediaData` as consumed by `updateMissingFields`. -/
structure WikiData where
  infobox : Option Infobox
  biography : Str
  imageUrl : Str
  committees : List Str
deriving DecidableEq

/-- An enriched Wikipedia record passed to `updateMissingFields`. -/
structure WikiRecord where
  name : Str
  constituency : Str
  county : Str
  party : Str
  gender : Str
  profilePictureUrl : Str
  wikipediaData : Option WikiData
deriving DecidableEq

/-- `updateMissingFields(mp, wikipediaMP)` from the Wikipedia enricher:
fill the five scalar fields if missing, then — only when an infobox is
present — backfill from the infobox, apply the pronoun heuristic when
gender is falsy or `'Unknown'` (presence of `' he '`/`' his '` in the
lowercased biography wins over `' she '`/`' her '`), and take picture and
committees if missing. -/
def updateMissingFields (mp : MP) (w : WikiRecord) : MP :=
  let m1 : MP :=
    { mp with
      constituency := updScalar mp.constituency (some w.constituency)
      county := updScalar mp.county (some w.county)
      party := updScalar mp.party (some w.party)
      gender := updScalar mp.gender (some w.gender)
      profilePictureUrl := updScalar mp.profilePictureUrl (some w.profilePictureUrl) }
  match w.wikipediaData with
  | none => m1
  | some wd =>
    match wd.infobox with
    | none => m1
    | some ib =>
      let c2 := if m1.constituency.isEmpty && !ib.constituency.isEmpty then ib.constituency else m1.constituency
      let p2 := if m1.party.isEmpty && !ib.politicalParty.isEmpty then ib.politicalParty else m1.party
      let g2 :=
        if m1.gender.isEmpty || m1.gender = "Unknown".data then
          if !wd.biography.isEmpty then
            let text := wd.biography.map jsLowerChar
            if containsSub text " he ".data || containsSub text " his ".data then "Male".data
            else if containsSub text " she ".data || containsSub text " her ".data then "Female".data
            else m1.gender
          else m1.gender
        else m1.gender
      let pp2 := if m1.profilePictureUrl.isEmpty && !wd.imageUrl.isEmpty then wd.imageUrl else m1.profilePictureUrl
      let cm2 := if m1.committees.isEmpty && !wd.committees.isEmpty then wd.committees else m1.committees
      { m1 with
        constituency := c2
        party := p2
        gender := g2
        profilePictureUrl := pp2
        committees := cm2 }

theorem notMem_cons_decide {α : Type} [DecidableEq α] (x a : α) (seen : List α) :
    (decide (a ∉ x :: seen)) = (decide (a ∉ seen) && decide (a ≠ x)) := by
  by_cases h1 : a ∈ seen <;> by_cases h2 : a = x <;> simp [h1, h2]

theorem dedupGo_eq_filter {α : Type} [DecidableEq α] (l : List α) :
    ∀ seen : List α, dedupGo seen l = (jsSetDedup l).filter (fun x => decide (x ∉ seen)) := by
  induction l with
  | nil => intro seen; rfl
  | cons x xs ih =>
    intro seen
    have hD : jsSetDedup (x :: xs) = x :: dedupGo [x] xs := by
      simp [jsSetDedup, dedupGo]
    rw [hD]
    by_cases hx : x ∈ seen
    · rw [List.filter_cons_of_neg (by simp [hx])]
      rw [dedupGo, if_pos hx, ih seen, ih [x], List.filter_filter]
      apply List.filter_congr
      intro a _
      by_cases ha : a ∈ seen
      · simp [ha]
      · have : a ≠ x := fun h => ha (h ▸ hx)
        simp [ha, this]
  
    · rw [List.filter_cons_of_pos (by simp [hx])]
      rw [dedupGo, if_neg hx, ih (x :: seen), ih [x], List.filter_filter]
      congr 1
      apply List.filter_congr
      intro a _
      rw [notMem_cons_decide]
      congr 1
      simp

theorem jsSetDedup_eq_dedupSpec {α : Type} [DecidableEq α] (l : List α) :
    jsSetDedup l = dedupSpec l := by
  induction l with
  | nil => rfl
  | cons x xs ih =>
    have hD : jsSetDedup (x :: xs) = x :: dedupGo [x] xs := by
      simp [jsSetDedup, dedupGo]
    rw [hD, dedupGo_eq_filter xs [x], ih, dedupSpec]
    congr 1
    apply List.filter_congr
    intro a _
    simp

theorem mem_dedupSpec {α : Type} [DecidableEq α] (y : α) (l : List α) :
    y ∈ dedupSpec l ↔ y ∈ l := by
  induction l with
  | nil => rfl
  | cons x xs ih =>
    rw [dedupSpec]
    by_cases h : y = x
    · simp [h]
    · simp [h, List.mem_filter, ih]

theorem nodup_dedupSpec {α : Type} [DecidableEq α] (l : List α) :
    (dedupSpec l).Nodup := by
  induction l with
  | nil => exact List.nodup_nil
  | cons x xs ih =>
    rw [dedupSpec, List.nodup_cons]
    constructor
    · intro hmem
      have := (List.mem_filter.mp hmem).2
      simp at this
    · exact ih.filter _

theorem dedupSpec_filter {α : Type} [DecidableEq α] (p : α → Bool) (l : List α) :
    dedupSpec (l.filter p) = (dedupSpec l).filter p := by
  induction l with
  | nil => rfl
  | cons x xs ih =>
    by_cases hp : p x
    · rw [List.filter_cons_of_pos hp, dedupSpec, dedupSpec,
        List.filter_cons_of_pos hp, ih, List.filter_filter, List.filter_filter]
      congr 1
      apply List.filter_congr
      intro a _
      rw [Bool.and_comm]
    · rw [List.filter_cons_of_neg (by simp [hp]), dedupSpec,
        List.filter_cons_of_neg (by simp [hp]), ih, List.filter_filter]
      apply List.filter_congr
      intro a _
      by_cases ha : a = x
      · subst ha
        simp [hp]
      · simp [ha]

theorem dedupSpec_eq_self_of_nodup {α : Type} [DecidableEq α] (l : List α)
    (h : l.Nodup) : dedupSpec l = l := by
  induction l with
  | nil => rfl
  | cons x xs ih =>
    rw [dedupSpec, ih (List.nodup_cons.mp h).2]
    congr 1
    apply List.filter_eq_self.mpr
    intro a ha
    have : a ≠ x := fun he => (List.nodup_cons.mp h).1 (he ▸ ha)
    simp [this]

theorem dedupSpec_append_of_subset {α : Type} [DecidableEq α] :
    ∀ (l ys : List α), l.Nodup → (∀ y ∈ ys, y ∈ l) → dedupSpec (l ++ ys) = l := by
  intro l
  induction l with
  | nil =>
    intro ys _ hsub
    have : ys = [] := List.eq_nil_iff_forall_not_mem.mpr (fun a ha => by simpa using hsub a ha)
    simp [this, dedupSpec]
  | cons x l' ih =>
    intro ys hnd hsub
    have hx : x ∉ l' := (List.nodup_cons.mp hnd).1
    rw [List.cons_append, dedupSpec, ← dedupSpec_filter, List.filter_append]
    have hl' : l'.filter (fun y => decide (y ≠ x)) = l' := by
      apply List.filter_eq_self.mpr
      intro a ha
      have : a ≠ x := fun he => hx (he ▸ ha)
      simp [this]
    rw [hl', ih (ys.filter (fun y => decide (y ≠ x))) (List.nodup_cons.mp hnd).2]
    intro y hy
    have h1 := (List.mem_filter.mp hy).1
    have h2 : y ≠ x := by simpa using (List.mem_filter.mp hy).2
    have := hsub y h1
    simp only [List.mem_cons] at this
    exact this.resolve_left h2

theorem mergeArr_some (cur l : List Str) : mergeArr cur (some l) = dedupSpec (cur ++ l) := by
  rw [mergeArr, jsSetDedup_eq_dedupSpec]

theorem mergeArr_some_idem (cur l : List Str) :
    mergeArr (mergeArr cur (some l)) (some l) = mergeArr cur (some l) := by
  rw [mergeArr_some, mergeArr_some]
  exact dedupSpec_append_of_subset _ _ (nodup_dedupSpec _)
    (fun y hy => (mem_dedupSpec y _).mpr (List.mem_append.mpr (Or.inr hy)))

theorem updateFrom_committees (e : MP) (src : SourceData) (n : Str) :
    (MP.updateFrom e src n).committees = mergeArr e.committees src.committees := by
  cases h : src.wikipediaData <;> simp [MP.updateFrom, h]

theorem updateFrom_employmentHistory (e : MP) (src : SourceData) (n : Str) :
    (MP.updateFrom e src n).employmentHistory = mergeArr e.employmentHistory src.employmentHistory := by
  cases h : src.wikipediaData <;> simp [MP.updateFrom, h]

theorem updateFrom_newsMentions (e : MP) (src : SourceData) (n : Str) :
    (MP.updateFrom e src n).newsMentions = mergeArr e.newsMentions src.newsMentions := by
  cases h : src.wikipediaData <;> simp [MP.updateFrom, h]

/-- C9: merging a list-valued field (`committees`, `employmentHistory`,
`newsMentions`) in `MP.updateFrom` is a deduplicating union: the result is
the first-occurrence deduplication of existing-then-incoming entries (so
insertion order of first occurrences is preserved), it contains no
duplicates under exact value equality, and merging the same incoming list a
second time leaves the field unchanged. -/
theorem updateFrom_list_fields_dedup_union (e : MP) (src : SourceData) (n : Str)
    (lc le ln : List Str)
    (hc : src.committees = some lc)
    (hemp : src.employmentHistory = some le)
    (hnews : src.newsMentions = some ln) :
    ((MP.updateFrom e src n).committees = dedupSpec (e.committees ++ lc) ∧
      (MP.updateFrom e src n).committees.Nodup ∧
      (MP.updateFrom (MP.updateFrom e src n) src n).committees = (MP.updateFrom e src n).committees) ∧
    ((MP.updateFrom e src n).employmentHistory = dedupSpec (e.employmentHistory ++ le) ∧
      (MP.updateFrom e src n).employmentHistory.Nodup ∧
      (MP.updateFrom (MP.updateFrom e src n) src n).employmentHistory = (MP.updateFrom e src n).employmentHistory) ∧
    ((MP.updateFrom e src n).newsMentions = dedupSpec (e.newsMentions ++ ln) ∧
      (MP.updateFrom e src n).newsMentions.Nodup ∧
      (MP.updateFrom (MP.updateFrom e src n) src n).newsMentions = (MP.updateFrom e src n).newsMentions) := by
  refine ⟨⟨?_, ?_, ?_⟩, ⟨?_, ?_, ?_⟩, ?_, ?_, ?_⟩
  · rw [updateFrom_committees, hc, mergeArr_some]
  · rw [updateFrom_committees, hc, mergeArr_some]
    exact nodup_dedupSpec _
  · rw [updateFrom_committees, updateFrom_committees e, hc, mergeArr_some_idem]
  · rw [updateFrom_employmentHistory, hemp, mergeArr_some]
  · rw [updateFrom_employmentHistory, hemp, mergeArr_some]
    exact nodup_dedupSpec _
  · rw [updateFrom_employmentHistory, updateFrom_employmentHistory e, hemp, mergeArr_some_idem]
  · rw [updateFrom_newsMentions, hnews, mergeArr_some]
  · rw [updateFrom_newsMentions, hnews, mergeArr_some]
    exact nodup_dedupSpec _
  · rw [updateFrom_newsMentions, updateFrom_newsMentions e, hnews, mergeArr_some_idem]

/-- Concrete MP used by several witnesses below. -/
def mpListBase : MP :=
  { defMP with
    name := "Grace Gathoni".data
    committees := ["Budget".data, "Health".data, "Budget".data] }

/-- Incoming record with all three list fields present. -/
def srcLists : SourceData :=
  { committees := some ["Health".data, "Energy".data]
    employmentHistory := some ["Teacher".data, "Teacher".data]
    newsMentions := some ["story-1".data] }

/-- Witness for C9 at a concrete entity and incoming record. -/
theorem updateFrom_list_fields_dedup_union_witness :
    (MP.updateFrom mpListBase srcLists "scorecard".data).committees =
      dedupSpec (mpListBase.committees ++ ["Health".data, "Energy".data]) ∧
    (MP.updateFrom (MP.updateFrom mpListBase srcLists "scorecard".data) srcLists "scorecard".data).committees =
      (MP.updateFrom mpListBase srcLists "scorecard".data).committees := by
  have h := updateFrom_list_fields_dedup_union mpListBase srcLists "scorecard".data
    ["Health".data, "Energy".data] ["Teacher".data, "Teacher".data] ["story-1".data]
    (by rfl) (by rfl) (by rfl)
  exact ⟨h.1.1, h.1.2.2⟩

theorem lookup_insertAssoc {α : Type} (m : List (Str × α)) (k k' : Str) (v : α) :
    lookupAssoc (insertAssoc m k' v) k = if k = k' then some v else lookupAssoc m k := by
  induction m with
  | nil => simp [insertAssoc, lookupAssoc]
  | cons kv rest ih =>
    obtain ⟨k0, v0⟩ := kv
    by_cases h0 : k0 = k'
    · subst h0
      rw [insertAssoc, if_pos rfl]
      by_cases hk : k = k0
      · subst hk
        simp [lookupAssoc]
      · simp [lookupAssoc, hk]
    · rw [insertAssoc, if_neg h0]
      by_cases hk : k = k0
      · subst hk
        simp [lookupAssoc, h0]
      · simp [lookupAssoc, hk, ih]

/-- The entity the amended claim says the region index yields: the
last-registered MP with a truthy constituency whose uppercased, trimmed
constituency equals the key. -/
def lastConstMatch (mps : List MP) (k : Str) : Option MP :=
  mps.foldl
    (fun acc mp =>
      if mp.constituency.isEmpty then acc
      else if upperTrim mp.constituency = k then some mp else acc)
    none

theorem lookup_foldConst (mps : List MP) :
    ∀ (m : List (Str × MP)) (k : Str),
      lookupAssoc
        (mps.foldl
          (fun m mp =>
            if mp.constituency.isEmpty then m
            else insertAssoc m (upperTrim mp.constituency) mp) m) k =
      mps.foldl
        (fun acc mp =>
          if mp.constituency.isEmpty then acc
          else if upperTrim mp.constituency = k then some mp else acc)
        (lookupAssoc m k) := by
  induction mps with
  | nil => intro m k; rfl
  | cons mp mps ih =>
    intro m k
    rw [List.foldl_cons, List.foldl_cons, ih]
    congr 1
    by_cases hc : mp.constituency.isEmpty
    · rw [if_pos hc, if_pos hc]
    · rw [if_neg hc, if_neg hc, lookup_insertAssoc]
      by_cases hk : k = upperTrim mp.constituency
      · rw [if_pos hk, if_pos hk.symm]
      · rw [if_neg hk, if_neg (fun he => hk he.symm)]

/-- C5 (amended): a region-tier lookup returns the last-registered MP whose
uppercased, trimmed constituency equals the looked-up key (the index is a
single map slot per key, so at most one entity is ever returned). -/
theorem region_lookup_last_registered (mps : List MP) (k : Str) :
    lookupAssoc (buildByConst mps) k = lastConstMatch mps k := by
  rw [buildByConst, lastConstMatch, lookup_foldConst]
  rfl

/-- First-registered MP of the shared constituency. -/
def mpStareheA : MP :=
  { defMP with name := "Alice Atieno".data, constituency := "Starehe".data }

/-- Second-registered MP whose constituency normalizes to the same key. -/
def mpStareheB : MP :=
  { defMP with name := "Brian Barasa".data, constituency := " starehe ".data }

/-- C5 counterexample: two MPs share the normalized constituency key
`STAREHE`, and the region index returns the second-registered one, not the
first-registered one the claim requires. -/
theorem region_index_first_registered_cex :
    upperTrim mpStareheA.constituency = upperTrim mpStareheB.constituency ∧
    lookupAssoc (buildByConst [mpStareheA, mpStareheB]) "STAREHE".data = some mpStareheB ∧
    mpStareheB ≠ mpStareheA := by
  refine ⟨by decide, by decide, by decide⟩

/-- C3: when an entity is present in the normalized-name index and the
incoming record's name normalizes to that entity's key, the cascade
resolves at the exact-name tier to that entity; the constituency, county
and fuzzy tiers are structurally unreachable in this case. -/
theorem exact_name_tier_wins (mps : List MP) (e : MP) (r : MP)
    (hidx : lookupAssoc (buildByName mps) (normalizeNameForComparison e.name) = some e)
    (hname : normalizeNameForComparison r.name = normalizeNameForComparison e.name) :
    findMatch mps r = some (e, MatchTier.direct) := by
  rw [findMatch]
  simp only [hname, hidx]

/-- Entity for the C3 witness. -/
def mpJane : MP := { defMP with name := "Jane Wanjiku".data }

/-- Incoming record whose name normalizes to the same key as `mpJane`. -/
def recJane : MP := { defMP with name := "HON. Jane Wanjiku".data }

/-- Witness for C3: a titled variant of a stored name matches at the
exact-name tier. -/
theorem exact_name_tier_wins_witness :
    findMatch [mpJane] recJane = some (mpJane, MatchTier.direct) :=
  exact_name_tier_wins [mpJane] mpJane recJane (by decide) (by decide)

theorem mathCeil_half (n : ℕ) : ⌈(n : ℚ) / 2⌉₊ = (n + 1) / 2 := by
  rcases Nat.even_or_odd n with he | ho
  · obtain ⟨k, hk⟩ := he
    subst hk
    have h1 : ((k + k : ℕ) : ℚ) / 2 = (k : ℚ) := by push_cast; ring
    rw [h1, Nat.ceil_natCast]
    omega
  · obtain ⟨k, hk⟩ := ho
    subst hk
    have h1 : ((2 * k + 1 : ℕ) : ℚ) / 2 = (k : ℚ) + 1 / 2 := by push_cast; ring
    have h2 : ⌈(k : ℚ) + 1 / 2⌉₊ = k + 1 := by
      rw [Nat.ceil_eq_iff (by omega)]
      constructor
      · push_cast
        norm_num
      · push_cast
        norm_num
    rw [h1, h2]
    omega

/-- Matching-token count of the partial/fuzzy tier as the spec words it:
candidate tokens (split on spaces, those of length at most three discarded)
that are a substring or a superstring of some token of the existing
entity's key. -/
def specMatchCount (candKey entKey : Str) : Nat :=
  ((splitSp candKey).filter (fun t => 3 < t.length)).countP
    (fun p => (splitSp entKey).any (fun q => containsSub q p || containsSub p q))

/-- The spec's fuzzy-match criterion: the matching-token count reaches
`ceil(candidateTokenCount / 2)`, with a true mathematical ceiling. -/
def specFuzzyMatch (candKey entKey : Str) : Prop :=
  ⌈((((splitSp candKey).filter (fun t => 3 < t.length)).length : ℚ) / 2)⌉₊ ≤
    specMatchCount candKey entKey

/-- Entity for the C2 boundary: shares two of the candidate's three
significant tokens. -/
def mpPaulKamau : MP := { defMP with name := "Paul Kamau Ouma".data }

/-- Entity sharing only one of the candidate's three significant tokens. -/
def mpJohnOtieno : MP := { defMP with name := "John Otieno Ouma".data }

/-- Candidate record with three significant tokens. -/
def recPeterKamau : MP := { defMP with name := "Peter Kamau Ouma".data }

/-- C2: the fuzzy tier's per-entity test used by `findMatch` agrees exactly
with the spec's criterion (tokens of length at most three discarded,
substring-or-superstring count at least `ceil(candidateTokenCount / 2)`),
and at the three-token boundary two matching tokens produce a fuzzy match
while one matching token produces none. -/
theorem fuzzy_tier_threshold :
    (∀ candKey entKey : Str,
      fuzzyHit (sigTokens candKey) entKey = true ↔ specFuzzyMatch candKey entKey) ∧
    findMatch [mpPaulKamau] recPeterKamau = some (mpPaulKamau, MatchTier.fuzzy) ∧
    findMatch [mpJohnOtieno] recPeterKamau = none := by
  refine ⟨?_, by decide, by decide⟩
  intro ck ek
  rw [fuzzyHit, specFuzzyMatch, specMatchCount, sigTokens, mathCeil_half,
    List.countP_eq_length_filter]
  simp [Nat.ble_eq]

/-- Entity present when the short-token record arrives. -/
def mpZKarimi : MP := { defMP with name := "Zebedee Karimi".data }

/-- Record whose normalized name is non-empty but has only tokens of length
at most three. -/
def recShortName : MP := { defMP with name := "Abc Xy".data }

/-- C10: when a record's normalized name is non-empty but every
space-separated token has length at most three, the significant-token list
is empty and the threshold `ceil(0 / 2) = 0` is met vacuously, so once the
exact-name, constituency and county tiers miss and the name index is
non-empty, the fuzzy tier returns the first entity enumerated from the name
index — the record is never reported unmatched (never appended as a new
entity). -/
theorem short_token_fuzzy_first_entity (mps : List MP) (r : MP) (k0 : Str) (e0 : MP)
    (rest : List (Str × MP))
    (_hnn : normalizeNameForComparison r.name ≠ [])
    (hshort : ∀ t ∈ splitSp (normalizeNameForComparison r.name), t.length ≤ 3)
    (hname : lookupAssoc (buildByName mps) (normalizeNameForComparison r.name) = none)
    (hconst : constStep (buildByConst mps) r = none)
    (hcounty : countyStep (buildByCounty mps) r (normalizeNameForComparison r.name) = none)
    (hidx : buildByName mps = (k0, e0) :: rest) :
    findMatch mps r = some (e0, MatchTier.fuzzy) := by
  have hsig : sigTokens (normalizeNameForComparison r.name) = [] := by
    rw [sigTokens, List.filter_eq_nil_iff]
    intro t ht
    have := hshort t ht
    simp only [decide_eq_true_eq]
    omega
  rw [findMatch]
  simp only [hname]
  simp only [hconst]
  simp only [hcounty]
  simp only [hsig, hidx]
  simp [fuzzyScan, fuzzyHit]

/-- Witness for C10: the two-token record `Abc Xy` fuzzy-matches the sole
(unrelated) stored entity. -/
theorem short_token_fuzzy_first_entity_witness :
    findMatch [mpZKarimi] recShortName = some (mpZKarimi, MatchTier.fuzzy) :=
  short_token_fuzzy_first_entity [mpZKarimi] recShortName
    "ZEBEDEE KARIMI".data mpZKarimi []
    (by decide) (by decide) (by decide) (by decide) (by decide) (by decide)

theorem isEmpty_false_of_ne {cur : Str} (h : cur ≠ []) : cur.isEmpty = false := by
  cases cur with
  | nil => exact absurd rfl h
  | cons c cs => rfl

theorem updScalar_of_ne (cur : Str) (v : Option Str) (h : cur ≠ []) :
    updScalar cur v = cur := by
  cases v with
  | none => rfl
  | some w => rw [updScalar, isEmpty_false_of_ne h]; rfl

theorem mem_mergeArr (x : Str) (cur : List Str) (v : Option (List Str))
    (h : x ∈ cur) : x ∈ mergeArr cur v := by
  cases v with
  | none => exact h
  | some l =>
    rw [mergeArr, jsSetDedup_eq_dedupSpec, mem_dedupSpec]
    exact List.mem_append.mpr (Or.inl h)

/-- Existing entity holding Wikipedia data before the merge. -/
def mpWithWiki : MP :=
  { defMP with
    name := "Jane Njeri".data
    party := "ODM".data
    wikipediaData := [("summary".data, "Member of Parliament".data)] }

/-- Incoming Wikipedia record carrying no Wikipedia data object. -/
def recNoWiki : MP := { defMP with name := "Jane Njeri".data }

/-- C1 counterexample: the merge step of `mergeWithExistingData` replaces a
populated `wikipediaData` with the incoming record's (empty) object, so a
populated field transitions to empty. -/
theorem scraper_merge_empties_wikipediaData_cex :
    mpWithWiki.wikipediaData ≠ [] ∧
    (scraperMerge mpWithWiki recNoWiki).wikipediaData = [] := by
  exact ⟨by decide, by decide⟩

/-- C1 (amended): in `MP.updateFrom` every populated scalar field is left
unchanged, list fields only gain elements, and a populated `wikipediaData`
stays populated; in the scraper's merge step the fill-if-missing fields
behave the same way, except `wikipediaData`, which is unconditionally
replaced by the incoming record's `wikipediaData` (and can therefore become
empty). -/
theorem merge_preserves_populated_fields_amended (e : MP) (src : SourceData)
    (n : Str) (w : MP) :
    ((e.name ≠ [] → (MP.updateFrom e src n).name = e.name) ∧
     (e.gender ≠ [] → (MP.updateFrom e src n).gender = e.gender) ∧
     (e.constituency ≠ [] → (MP.updateFrom e src n).constituency = e.constituency) ∧
     (e.county ≠ [] → (MP.updateFrom e src n).county = e.county) ∧
     (e.party ≠ [] → (MP.updateFrom e src n).party = e.party) ∧
     (e.status ≠ [] → (MP.updateFrom e src n).status = e.status) ∧
     (e.profilePictureUrl ≠ [] → (MP.updateFrom e src n).profilePictureUrl = e.profilePictureUrl) ∧
     (e.email ≠ [] → (MP.updateFrom e src n).email = e.email) ∧
     (e.phone ≠ [] → (MP.updateFrom e src n).phone = e.phone) ∧
     (e.leadershipPosition ≠ [] → (MP.updateFrom e src n).leadershipPosition = e.leadershipPosition) ∧
     (e.wikipediaUrl ≠ [] → (MP.updateFrom e src n).wikipediaUrl = e.wikipediaUrl)) ∧
    ((∀ x ∈ e.committees, x ∈ (MP.updateFrom e src n).committees) ∧
     (∀ x ∈ e.employmentHistory, x ∈ (MP.updateFrom e src n).employmentHistory) ∧
     (∀ x ∈ e.newsMentions, x ∈ (MP.updateFrom e src n).newsMentions) ∧
     (∀ x ∈ e.dataSources, x ∈ (MP.updateFrom e src n).dataSources) ∧
     (e.wikipediaData ≠ [] → (MP.updateFrom e src n).wikipediaData ≠ [])) ∧
    ((e.constituency ≠ [] → (scraperMerge e w).constituency = e.constituency) ∧
     (e.county ≠ [] → (scraperMerge e w).county = e.county) ∧
     (e.party ≠ [] → (scraperMerge e w).party = e.party) ∧
     (e.wikipediaUrl ≠ [] → (scraperMerge e w).wikipediaUrl = e.wikipediaUrl) ∧
     (e.gender ≠ [] → e.gender ≠ "Unknown".data → (scraperMerge e w).gender = e.gender) ∧
     (scraperMerge e w).wikipediaData = w.wikipediaData) := by
  refine ⟨⟨?_, ?_, ?_, ?_, ?_, ?_, ?_, ?_, ?_, ?_, ?_⟩, ⟨?_, ?_, ?_, ?_, ?_⟩,
    ⟨?_, ?_, ?_, ?_, ?_, ?_⟩⟩
  · intro h; cases hw : src.wikipediaData <;> simp [MP.updateFrom, hw, updScalar_of_ne _ _ h]
  · intro h; cases hw : src.wikipediaData <;> simp [MP.updateFrom, hw, updScalar_of_ne _ _ h]
  · intro h; cases hw : src.wikipediaData <;> simp [MP.updateFrom, hw, updScalar_of_ne _ _ h]
  · intro h; cases hw : src.wikipediaData <;> simp [MP.updateFrom, hw, updScalar_of_ne _ _ h]
  · intro h; cases hw : src.wikipediaData <;> simp [MP.updateFrom, hw, updScalar_of_ne _ _ h]
  · intro h; cases hw : src.wikipediaData <;> simp [MP.updateFrom, hw, updScalar_of_ne _ _ h]
  · intro h; cases hw : src.wikipediaData <;> simp [MP.updateFrom, hw, updScalar_of_ne _ _ h]
  · intro h; cases hw : src.wikipediaData <;> simp [MP.updateFrom, hw, updScalar_of_ne _ _ h]
  · intro h; cases hw : src.wikipediaData <;> simp [MP.updateFrom, hw, updScalar_of_ne _ _ h]
  · intro h; cases hw : src.wikipediaData <;> simp [MP.updateFrom, hw, updScalar_of_ne _ _ h]
  · intro h
    cases hw : src.wikipediaData <;>
      simp [MP.updateFrom, hw, updScalar_of_ne _ _ h, isEmpty_false_of_ne h]
  · intro x hx
    cases hw : src.wikipediaData <;>
      simp only [MP.updateFrom, hw] <;> exact mem_mergeArr x _ _ hx
  · intro x hx
    cases hw : src.wikipediaData <;>
      simp only [MP.updateFrom, hw] <;> exact mem_mergeArr x _ _ hx
  · intro x hx
    cases hw : src.wikipediaData <;>
      simp only [MP.updateFrom, hw] <;> exact mem_mergeArr x _ _ hx
  · intro x hx
    cases hw : src.wikipediaData <;> simp only [MP.updateFrom, hw] <;>
      by_cases hm : n ∈ e.dataSources <;>
        simp [hm, hx, List.mem_append]
  · intro h
    cases hw : src.wikipediaData with
    | none => simp only [MP.updateFrom, hw]; exact h
    | some wd =>
      simp only [MP.updateFrom, hw, objMerge]
      intro habs
      rcases List.append_eq_nil.mp habs with ⟨h1, _⟩
      exact h (List.map_eq_nil_iff.mp h1)
  · intro h; simp [scraperMerge, isEmpty_false_of_ne h]
  · intro h; simp [scraperMerge, isEmpty_false_of_ne h]
  · intro h; simp [scraperMerge, isEmpty_false_of_ne h]
  · intro h; simp [scraperMerge, isEmpty_false_of_ne h]
  · intro h hU; simp [scraperMerge, isEmpty_false_of_ne h, hU]
  · simp [scraperMerge]

/-- Witness for the amended C1 at a concrete entity and record. -/
theorem merge_preserves_populated_fields_amended_witness :
    (MP.updateFrom mpWithWiki srcLists "wikipedia".data).email = mpWithWiki.email ∧
    (scraperMerge mpWithWiki recNoWiki).party = mpWithWiki.party ∧
    (MP.updateFrom mpWithWiki srcLists "wikipedia".data).wikipediaData ≠ [] := by
  have h := merge_preserves_populated_fields_amended mpWithWiki srcLists "wikipedia".data recNoWiki
  exact ⟨h.1.2.2.2.2.2.2.2.1 (by decide), h.2.2.2.2.1 (by decide), h.2.1.2.2.2.2 (by decide)⟩

/-- Incoming record carrying concrete contact details. -/
def srcContact : SourceData :=
  { email := some "info@parliament.go.ke".data
    phone := some "+254700111222".data }

/-- C7 (code bug): `MP.getMissingFields` counts an email equal to the
`'Not available'` sentinel as missing, yet `MP.updateFrom` only updates a
field whose current value is falsy, and the sentinel is a truthy string —
so a concrete incoming email or phone is never adopted over the sentinel,
contradicting the fill-empty-or-default policy. -/
theorem email_sentinel_never_updated :
    defMP.email = "Not available".data ∧
    "email".data ∈ MP.getMissingFields defMP ∧
    srcContact.email = some "info@parliament.go.ke".data ∧
    (MP.updateFrom defMP srcContact "parliament".data).email = "Not available".data ∧
    (MP.updateFrom defMP srcContact "parliament".data).phone = "Not available".data := by
  exact ⟨by decide, by decide, by decide, by decide, by decide⟩

/-- Count of the starting positions at which a (non-empty) pattern occurs
in a string; modelled from the spec's words for the pronoun-density
comparison. -/
def countSub : Str → Str → Nat
  | [], _ => 0
  | c :: cs, needle => (if startsWithStr needle (c :: cs) then 1 else 0) + countSub cs needle

/-- Male-coded pronoun occurrences per the spec's density heuristic. -/
def specMaleCount (text : Str) : Nat :=
  countSub text " he ".data + countSub text " his ".data

/-- Female-coded pronoun occurrences per the spec's density heuristic. -/
def specFemaleCount (text : Str) : Nat :=
  countSub text " she ".data + countSub text " her ".data

/-- Entity with unknown gender. -/
def mpUnknownG : MP := { defMP with name := "Kim Koech".data }

/-- Wikipedia record whose biography contains one male-coded and one
female-coded pronoun occurrence. -/
def recTieBio : WikiRecord :=
  { name := "Kim Koech".data
    constituency := []
    county := []
    party := []
    gender := []
    profilePictureUrl := []
    wikipediaData := some
      { infobox := some { constituency := [], politicalParty := [] }
        biography := " he she ".data
        imageUrl := []
        committees := [] } }

/-- C6 counterexample: the pronoun counts of the biography are tied (one
male-coded, one female-coded occurrence), so the spec's strict-majority
heuristic would leave the gender unknown, yet `updateMissingFields` adopts
`'Male'`. -/
theorem gender_heuristic_tie_cex :
    mpUnknownG.gender = "Unknown".data ∧
    specMaleCount (" he she ".data.map jsLowerChar) =
      specFemaleCount (" he she ".data.map jsLowerChar) ∧
    (updateMissingFields mpUnknownG recTieBio).gender = "Male".data := by
  exact ⟨by decide, by decide, by decide⟩

/-- C6 (amended): the biography heuristic of `updateMissingFields` is
presence-based, not count-based: with an infobox present and gender still
`'Unknown'`, any occurrence of `' he '` or `' his '` in the lowercased
biography yields `'Male'` regardless of female-coded counts; otherwise any
occurrence of `' she '` or `' her '` yields `'Female'`; a gender already
set to `'Male'` or `'Female'` is never changed. -/
theorem gender_heuristic_presence_amended :
    (∀ (mp : MP) (w : WikiRecord),
      (mp.gender = "Male".data ∨ mp.gender = "Female".data) →
      (updateMissingFields mp w).gender = mp.gender) ∧
    (∀ (mp : MP) (w : WikiRecord) (wd : WikiData) (ib : Infobox),
      mp.gender = "Unknown".data → w.wikipediaData = some wd → wd.infobox = some ib →
      (containsSub (wd.biography.map jsLowerChar) " he ".data ||
        containsSub (wd.biography.map jsLowerChar) " his ".data) = true →
      (updateMissingFields mp w).gender = "Male".data) ∧
    (∀ (mp : MP) (w : WikiRecord) (wd : WikiData) (ib : Infobox),
      mp.gender = "Unknown".data → w.wikipediaData = some wd → wd.infobox = some ib →
      (containsSub (wd.biography.map jsLowerChar) " he ".data ||
        containsSub (wd.biography.map jsLowerChar) " his ".data) = false →
      (containsSub (wd.biography.map jsLowerChar) " she ".data ||
        containsSub (wd.biography.map jsLowerChar) " her ".data) = true →
      (updateMissingFields mp w).gender = "Female".data) := by
  refine ⟨?_, ?_, ?_⟩
  · intro mp w h
    have hne : mp.gender ≠ [] := by
      rcases h with h | h <;> rw [h] <;> decide
    have hU : mp.gender ≠ "Unknown".data := by
      rcases h with h | h <;> rw [h] <;> decide
    have hg : updScalar mp.gender (some w.gender) = mp.gender :=
      updScalar_of_ne _ _ hne
    cases hwd : w.wikipediaData with
    | none => simp [updateMissingFields, hwd, hg]
    | some wd =>
      cases hib : wd.infobox with
      | none => simp [updateMissingFields, hwd, hib, hg]
      | some ib =>
        simp [updateMissingFields, hwd, hib, hg, isEmpty_false_of_ne hne, hU]
  · intro mp w wd ib hg hwd hib hcont
    have hbio : wd.biography ≠ [] := by
      intro hb
      rw [hb] at hcont
      revert hcont
      decide
    have hgu : updScalar "Unknown".data (some w.gender) = "Unknown".data :=
      updScalar_of_ne _ _ (by decide)
    simp [updateMissingFields, hwd, hib, hg, hgu, isEmpty_false_of_ne hbio, hcont]
  · intro mp w wd ib hg hwd hib hmale hfem
    have hbio : wd.biography ≠ [] := by
      intro hb
      rw [hb] at hfem
      revert hfem
      decide
    have hgu : updScalar "Unknown".data (some w.gender) = "Unknown".data :=
      updScalar_of_ne _ _ (by decide)
    simp [updateMissingFields, hwd, hib, hg, hgu, isEmpty_false_of_ne hbio, hmale, hfem]

/-- Witness for the amended C6: an explicitly `'Male'` entity is unchanged
by a mixed-pronoun biography, and an `'Unknown'` entity adopts `'Male'`
from the presence of `' he '`. -/
theorem gender_heuristic_presence_amended_witness :
    (updateMissingFields { defMP with gender := "Male".data } recTieBio).gender = "Male".data ∧
    (updateMissingFields mpUnknownG recTieBio).gender = "Male".data := by
  constructor
  · exact gender_heuristic_presence_amended.1 _ recTieBio (Or.inl rfl)
  · exact gender_heuristic_presence_amended.2.1 mpUnknownG recTieBio _ _
      (by decide) (by rfl) (by rfl) (by decide)

/-- C4 counterexample: the title patterns are plain substring matches, so
the `DR` embedded in `ANDREW` is removed, and `MRS.` is not in the stripped
set at all. -/
theorem normalize_embedded_token_cex :
    normalizeNameForComparison "ANDREW".data = "ANEW".data ∧
    "ANEW".data ≠ "ANDREW".data ∧
    normalizeNameForComparison "MRS. Mary Mumbi".data = "MRS. MARY MUMBI".data := by
  exact ⟨by decide, by decide, by decide⟩

/-- C4 (amended): the normalizer strips exactly the tokens `HON`, `DR`,
`PROF`, `ENG`, `AMB`, `CPA` and `COL RTD` — case-insensitively via
uppercasing, each with an optional trailing period and whitespace, and only
at its first occurrence; `MR.`, `MRS.`, `MS.` are not stripped; matching is
substring-based, so occurrences embedded inside words are removed as
well. -/
theorem normalize_token_stripping_amended :
    normalizeNameForComparison "HON. DR. PROF. ENG. AMB. CPA. COL. RTD. John Smith".data =
      "JOHN SMITH".data ∧
    normalizeNameForComparison "hon. dr. prof. eng. amb. cpa. col. rtd. john smith".data =
      "JOHN SMITH".data ∧
    normalizeNameForComparison "MR. John Mutua".data = "MR. JOHN MUTUA".data ∧
    normalizeNameForComparison "MS. Mary Mumbi".data = "MS. MARY MUMBI".data ∧
    normalizeNameForComparison "DR. DR. John".data = "DR. JOHN".data ∧
    normalizeNameForComparison "Sandra Odhiambo".data = "SANA ODHIO".data := by
  exact ⟨by decide, by decide, by decide, by decide, by decide, by decide⟩

theorem containsSub_nilTok : ∀ l : Str, containsSub l [] = true := by
  intro l
  cases l <;> simp [containsSub, startsWithStr]

theorem startsWith_mapComma {tok : Str} (h : ∀ c ∈ tok, c ≠ ' ') :
    ∀ l, startsWithStr tok (l.map commaToSpace) = true → startsWithStr tok l = true := by
  induction tok with
  | nil => intro l _; rfl
  | cons t ts ih =>
    intro l hl
    cases l with
    | nil => simp [startsWithStr] at hl
    | cons c cs =>
      simp only [List.map_cons, startsWithStr, Bool.and_eq_true, decide_eq_true_eq] at hl ⊢
      obtain ⟨h1, h2⟩ := hl
      have ht : t ≠ ' ' := h t (by simp)
      have hc : c = t := by
        by_cases hcc : c = ','
        · rw [hcc] at h1
          rw [commaToSpace, if_pos rfl] at h1
          exact absurd h1.symm ht
        · rw [commaToSpace, if_neg hcc] at h1
          exact h1
      exact ⟨hc, ih (fun x hx => h x (by simp [hx])) cs h2⟩

theorem containsSub_mapComma {tok : Str} (h : ∀ c ∈ tok, c ≠ ' ') :
    ∀ l, containsSub (l.map commaToSpace) tok = true → containsSub l tok = true := by
  intro l
  induction l with
  | nil => simp [containsSub]
  | cons c cs ih =>
    intro hc
    simp only [List.map_cons, containsSub, Bool.or_eq_true] at hc ⊢
    rcases hc with hs | hcc
    · exact Or.inl (startsWith_mapComma h (c :: cs) (by simpa using hs))
    · exact Or.inr (ih hcc)

theorem collapseWs_cons_ws_false (c : Char) (cs : Str) (h : isJsSpace c = true) :
    collapseWsAux false (c :: cs) = ' ' :: collapseWsAux true cs := by
  rw [collapseWsAux, if_pos h]
  rfl

theorem collapseWs_cons_ws_true (c : Char) (cs : Str) (h : isJsSpace c = true) :
    collapseWsAux true (c :: cs) = collapseWsAux true cs := by
  rw [collapseWsAux, if_pos h]
  rfl

theorem collapseWs_cons_nws (b : Bool) (c : Char) (cs : Str) (h : isJsSpace c = false) :
    collapseWsAux b (c :: cs) = c :: collapseWsAux false cs := by
  rw [collapseWsAux, if_neg (by simp [h])]

theorem startsWith_collapse :
    ∀ (l tok : Str), (∀ c ∈ tok, isJsSpace c = false) →
      startsWithStr tok (collapseWsAux false l) = true → startsWithStr tok l = true := by
  intro l
  induction l with
  | nil => intro tok _ h; simpa [collapseWsAux] using h
  | cons c cs ih =>
    intro tok hns h
    by_cases hws : isJsSpace c
    · rw [collapseWs_cons_ws_false c cs hws] at h
      cases tok with
      | nil => rfl
      | cons t ts =>
        simp only [startsWithStr, Bool.and_eq_true, decide_eq_true_eq] at h
        have hts := hns t (by simp)
        rw [← h.1] at hts
        exact absurd hts (by decide)
    · rw [collapseWs_cons_nws false c cs (by simp [hws])] at h
      cases tok with
      | nil => rfl
      | cons t ts =>
        simp only [startsWithStr, Bool.and_eq_true, decide_eq_true_eq] at h ⊢
        exact ⟨h.1, ih ts (fun x hx => hns x (by simp [hx])) h.2⟩

theorem containsSub_collapse :
    ∀ (l : Str) (b : Bool) (tok : Str), tok ≠ [] → (∀ c ∈ tok, isJsSpace c = false) →
      containsSub (collapseWsAux b l) tok = true → containsSub l tok = true := by
  intro l
  induction l with
  | nil =>
    intro b tok _ _ h
    simpa [collapseWsAux] using h
  | cons c cs ih =>
    intro b tok hne hns h
    by_cases hws : isJsSpace c
    · cases b with
      | true =>
        rw [collapseWs_cons_ws_true c cs hws] at h
        have := ih true tok hne hns h
        simp [containsSub, this]
      | false =>
        rw [collapseWs_cons_ws_false c cs hws] at h
        rw [containsSub, Bool.or_eq_true] at h
        rcases h with hs | hcc
        · cases tok with
          | nil => exact absurd rfl hne
          | cons t ts =>
            simp only [startsWithStr, Bool.and_eq_true, decide_eq_true_eq] at hs
            have hts := hns t (by simp)
            rw [← hs.1] at hts
            exact absurd hts (by decide)
        · have := ih true tok hne hns hcc
          simp [containsSub, this]
    · rw [collapseWs_cons_nws b c cs (by simp [hws])] at h
      rw [containsSub, Bool.or_eq_true] at h
      rcases h with hs | hcc
      · cases tok with
        | nil => exact absurd rfl hne
        | cons t ts =>
          simp only [startsWithStr, Bool.and_eq_true, decide_eq_true_eq] at hs
          have := startsWith_collapse cs ts (fun x hx => hns x (by simp [hx])) hs.2
          simp [containsSub, startsWithStr, hs.1, this]
      · have := ih false tok hne hns hcc
        simp [containsSub, this]

theorem startsWith_trimEnd :
    ∀ (l tok : Str), startsWithStr tok (trimEnd l) = true → startsWithStr tok l = true := by
  intro l
  induction l with
  | nil => intro tok h; simpa [trimEnd] using h
  | cons c cs ih =>
    intro tok h
    rw [trimEnd] at h
    split at h
    · cases tok with
      | nil => rfl
      | cons t ts => simp [startsWithStr] at h
    · cases tok with
      | nil => rfl
      | cons t ts =>
        simp only [startsWithStr, Bool.and_eq_true, decide_eq_true_eq] at h ⊢
        exact ⟨h.1, ih ts h.2⟩

theorem containsSub_trimEnd :
    ∀ (l tok : Str), containsSub (trimEnd l) tok = true → containsSub l tok = true := by
  intro l
  induction l with
  | nil => intro tok h; simpa [trimEnd] using h
  | cons c cs ih =>
    intro tok h
    rw [trimEnd] at h
    split at h
    · cases tok with
      | nil => exact containsSub_nilTok _
      | cons t ts => simp [containsSub, startsWithStr] at h
    · rw [containsSub] at h
      rw [Bool.or_eq_true] at h
      rcases h with hs | hcc
      · cases tok with
        | nil => exact containsSub_nilTok _
        | cons t ts =>
          simp only [startsWithStr, Bool.and_eq_true, decide_eq_true_eq] at hs
          have := startsWith_trimEnd cs ts hs.2
          simp [containsSub, startsWithStr, hs.1, this]
      · have := ih _ hcc
        simp [containsSub, this]

theorem containsSub_dropWhile (p : Char → Bool) :
    ∀ (l tok : Str), containsSub (l.dropWhile p) tok = true → containsSub l tok = true := by
  intro l
  induction l with
  | nil => intro tok h; simpa using h
  | cons c cs ih =>
    intro tok h
    by_cases hp : p c
    · rw [List.dropWhile_cons, if_pos hp] at h
      have := ih _ h
      simp [containsSub, this]
    · rw [List.dropWhile_cons, if_neg hp] at h
      exact h

theorem containsSub_trimWs (l tok : Str)
    (h : containsSub (trimWs l) tok = true) : containsSub l tok = true :=
  containsSub_dropWhile isJsSpace l tok (containsSub_trimEnd _ tok h)

theorem dropLit_isSome (tok : Str) :
    ∀ s, (dropLit tok s).isSome = startsWithStr tok s := by
  induction tok with
  | nil => intro s; rfl
  | cons t ts ih =>
    intro s
    cases s with
    | nil => rfl
    | cons c cs =>
      rw [dropLit, startsWithStr]
      by_cases hc : c = t
      · rw [if_pos hc]
        simp [hc, ih]
      · rw [if_neg hc]
        simp [hc]

theorem replaceFirst_self (m : Str → Option Str) (tok : Str)
    (hm : ∀ s, m s ≠ none → startsWithStr tok s = true) :
    ∀ l, containsSub l tok = false → replaceFirst m l = l := by
  intro l
  induction l with
  | nil =>
    intro h
    have hmn : m [] = none := by
      by_contra hne
      have hsw := hm [] hne
      cases tok with
      | nil => simp [containsSub] at h
      | cons t ts => simp [startsWithStr] at hsw
    rw [replaceFirst, hmn]
  | cons c cs ih =>
    intro h
    simp only [containsSub, Bool.or_eq_false_iff] at h
    obtain ⟨h1, h2⟩ := h
    have hmn : m (c :: cs) = none := by
      by_contra hne
      have hsw := hm _ hne
      rw [hsw] at h1
      simp at h1
    rw [replaceFirst, hmn, ih h2]

theorem matchToken_startsWith (tok s : Str) (h : matchToken tok s ≠ none) :
    startsWithStr tok s = true := by
  rw [matchToken] at h
  cases hd : dropLit tok s with
  | none => rw [hd] at h; simp at h
  | some r =>
    have := dropLit_isSome tok s
    rw [hd] at this
    simpa using this.symm

theorem matchColRtd_startsWith (s : Str) (h : matchColRtd s ≠ none) :
    startsWithStr ['C', 'O', 'L'] s = true := by
  rw [matchColRtd] at h
  cases hd : dropLit ['C', 'O', 'L'] s with
  | none => rw [hd] at h; simp at h
  | some r =>
    have := dropLit_isSome ['C', 'O', 'L'] s
    rw [hd] at this
    simpa using this.symm

theorem matchParen_startsWith (s : Str) (h : matchParen s ≠ none) :
    startsWithStr ['('] s = true := by
  cases s with
  | nil => simp [matchParen] at h
  | cons c cs =>
    rw [matchParen] at h
    by_cases hc : c = '('
    · simp [startsWithStr, hc]
    · rw [if_neg hc] at h
      simp at h

/-- The head of the string, if any, is not whitespace. -/
def headNotWs : Str → Prop
  | [] => True
  | c :: _ => isJsSpace c = false

/-- Whitespace normal form: every whitespace character is a single `' '`
not followed by further whitespace. -/
def wsOk : Str → Bool
  | [] => true
  | [c] => !isJsSpace c || c = ' '
  | c :: d :: rest => (!isJsSpace c || (c = ' ' && !isJsSpace d)) && wsOk (d :: rest)

theorem wsOk_tail (c : Char) (cs : Str) (h : wsOk (c :: cs) = true) : wsOk cs = true := by
  cases cs with
  | nil => rfl
  | cons d ds =>
    rw [wsOk, Bool.and_eq_true] at h
    exact h.2

theorem collapse_invariant :
    ∀ l : Str, wsOk (collapseWsAux false l) = true ∧
      wsOk (collapseWsAux true l) = true ∧ headNotWs (collapseWsAux true l) := by
  intro l
  induction l with
  | nil => exact ⟨rfl, rfl, trivial⟩
  | cons c cs ih =>
    obtain ⟨A, B, C⟩ := ih
    by_cases hws : isJsSpace c = true
    · refine ⟨?_, ?_, ?_⟩
      · rw [collapseWs_cons_ws_false c cs hws]
        cases hX : collapseWsAux true cs with
        | nil => decide
        | cons d ds =>
          rw [hX] at B C
          have hd : isJsSpace d = false := C
          rw [wsOk, Bool.and_eq_true]
          refine ⟨?_, B⟩
          simp [hd]
      · rw [collapseWs_cons_ws_true c cs hws]
        exact B
      · rw [collapseWs_cons_ws_true c cs hws]
        exact C
    · simp only [Bool.not_eq_true] at hws
      have hfix : wsOk (c :: collapseWsAux false cs) = true := by
        cases hX : collapseWsAux false cs with
        | nil =>
          rw [wsOk]
          simp [hws]
        | cons d ds =>
          rw [hX] at A
          rw [wsOk, Bool.and_eq_true]
          refine ⟨?_, A⟩
          simp [hws]
      refine ⟨?_, ?_, ?_⟩
      · rw [collapseWs_cons_nws false c cs hws]
        exact hfix
      · rw [collapseWs_cons_nws true c cs hws]
        exact hfix
      · rw [collapseWs_cons_nws true c cs hws]
        exact hws

theorem collapse_fixed :
    ∀ l : Str, wsOk l = true →
      collapseWsAux false l = l ∧ (headNotWs l → collapseWsAux true l = l) := by
  intro l
  induction l with
  | nil => intro _; exact ⟨rfl, fun _ => rfl⟩
  | cons c cs ih =>
    intro h
    obtain ⟨IH1, IH2⟩ := ih (wsOk_tail c cs h)
    by_cases hws : isJsSpace c = true
    · have hc' : c = ' ' ∧ headNotWs cs := by
        cases cs with
        | nil =>
          rw [wsOk] at h
          simp [hws] at h
          exact ⟨h, trivial⟩
        | cons d ds =>
          rw [wsOk, Bool.and_eq_true] at h
          have h1 := h.1
          simp [hws] at h1
          exact ⟨h1.1, h1.2⟩
      obtain ⟨hc, hhead⟩ := hc'
      constructor
      · rw [collapseWs_cons_ws_false c cs hws, IH2 hhead, hc]
      · intro hhn
        have hhn' : isJsSpace c = false := hhn
        rw [hws] at hhn'
        exact absurd hhn' (by decide)
    · simp only [Bool.not_eq_true] at hws
      constructor
      · rw [collapseWs_cons_nws false c cs hws, IH1]
      · intro _
        rw [collapseWs_cons_nws true c cs hws, IH1]

theorem trimEnd_cases (c : Char) (cs : Str) :
    trimEnd (c :: cs) = [] ∨ trimEnd (c :: cs) = c :: trimEnd cs := by
  rw [trimEnd]
  split
  · exact Or.inl rfl
  · exact Or.inr rfl

theorem trimEnd_wsOk : ∀ l : Str, wsOk l = true → wsOk (trimEnd l) = true := by
  intro l
  induction l with
  | nil => intro h; exact h
  | cons c cs ih =>
    intro h
    rcases trimEnd_cases c cs with he | he <;> rw [he]
    · rfl
    · have htc := ih (wsOk_tail c cs h)
      cases cs with
      | nil => exact h
      | cons d ds =>
        rcases trimEnd_cases d ds with hd | hd <;> rw [hd]
        · rw [wsOk, Bool.and_eq_true] at h
          have h1 := h.1
          by_cases hwc : isJsSpace c = true
          · simp [hwc] at h1
            rw [wsOk]
            simp [hwc, h1.1]
          · simp only [Bool.not_eq_true] at hwc
            rw [wsOk]
            simp [hwc]
        · rw [hd] at htc
          rw [wsOk, Bool.and_eq_true] at h ⊢
          exact ⟨h.1, htc⟩

theorem dropWhile_wsOk (p : Char → Bool) :
    ∀ l : Str, wsOk l = true → wsOk (l.dropWhile p) = true := by
  intro l
  induction l with
  | nil => intro h; exact h
  | cons c cs ih =>
    intro h
    by_cases hp : p c = true
    · rw [List.dropWhile_cons, if_pos hp]
      exact ih (wsOk_tail c cs h)
    · rw [List.dropWhile_cons, if_neg hp]
      exact h

theorem headNotWs_dropWhile : ∀ l : Str, headNotWs (l.dropWhile isJsSpace) := by
  intro l
  induction l with
  | nil => trivial
  | cons c cs ih =>
    by_cases hp : isJsSpace c = true
    · rw [List.dropWhile_cons, if_pos hp]
      exact ih
    · rw [List.dropWhile_cons, if_neg hp]
      simp only [Bool.not_eq_true] at hp
      exact hp

theorem headNotWs_trimEnd : ∀ l : Str, headNotWs l → headNotWs (trimEnd l) := by
  intro l h
  cases l with
  | nil => trivial
  | cons c cs =>
    rcases trimEnd_cases c cs with he | he <;> rw [he]
    · trivial
    · exact h

theorem dropWhile_eq_self_of_headNotWs :
    ∀ l : Str, headNotWs l → l.dropWhile isJsSpace = l := by
  intro l h
  cases l with
  | nil => rfl
  | cons c cs =>
    have h' : isJsSpace c = false := h
    rw [List.dropWhile_cons, if_neg (by simp [h'])]

theorem trimEnd_idem : ∀ l : Str, trimEnd (trimEnd l) = trimEnd l := by
  intro l
  induction l with
  | nil => rfl
  | cons c cs ih =>
    by_cases h1 : trimEnd cs = []
    · by_cases h2 : isJsSpace c = true
      · have he : trimEnd (c :: cs) = [] := by
          rw [trimEnd, if_pos (by simp [h1, h2])]
        rw [he]
        rfl
      · have he : trimEnd (c :: cs) = c :: trimEnd cs := by
          rw [trimEnd, if_neg (by simp [h2])]
        rw [he, h1]
        rw [show trimEnd [c] = [c] from by rw [trimEnd, if_neg (by simp [h2])]; rfl]
    · have he : trimEnd (c :: cs) = c :: trimEnd cs := by
        rw [trimEnd, if_neg (by simp [h1])]
      rw [he, trimEnd, if_neg (by simp [ih, h1]), ih]

theorem mem_collapse :
    ∀ (l : Str) (b : Bool) (c : Char), c ∈ collapseWsAux b l → c = ' ' ∨ c ∈ l := by
  intro l
  induction l with
  | nil =>
    intro b c h
    simp [collapseWsAux] at h
  | cons d ds ih =>
    intro b c h
    by_cases hws : isJsSpace d = true
    · cases b with
      | true =>
        rw [collapseWs_cons_ws_true d ds hws] at h
        rcases ih true c h with h1 | h1
        · exact Or.inl h1
        · exact Or.inr (by simp [h1])
      | false =>
        rw [collapseWs_cons_ws_false d ds hws] at h
        rcases List.mem_cons.mp h with h1 | h1
        · exact Or.inl h1
        · rcases ih true c h1 with h2 | h2
          · exact Or.inl h2
          · exact Or.inr (by simp [h2])
    · simp only [Bool.not_eq_true] at hws
      rw [collapseWs_cons_nws b d ds hws] at h
      rcases List.mem_cons.mp h with h1 | h1
      · exact Or.inr (by simp [h1])
      · rcases ih false c h1 with h2 | h2
        · exact Or.inl h2
        · exact Or.inr (by simp [h2])

theorem mem_trimEnd : ∀ (l : Str) (c : Char), c ∈ trimEnd l → c ∈ l := by
  intro l
  induction l with
  | nil => intro c h; exact h
  | cons d ds ih =>
    intro c h
    rcases trimEnd_cases d ds with he | he <;> rw [he] at h
    · simp at h
    · rcases List.mem_cons.mp h with h1 | h1
      · simp [h1]
      · simp [ih c h1]

theorem mem_dropWhile (p : Char → Bool) :
    ∀ (l : Str) (c : Char), c ∈ l.dropWhile p → c ∈ l := by
  intro l
  induction l with
  | nil => intro c h; exact h
  | cons d ds ih =>
    intro c h
    by_cases hp : p d = true
    · rw [List.dropWhile_cons, if_pos hp] at h
      simp [ih c h]
    · rw [List.dropWhile_cons, if_neg hp] at h
      exact h

theorem map_eq_self_of {f : Char → Char} :
    ∀ l : Str, (∀ c ∈ l, f c = c) → l.map f = l := by
  intro l h
  induction l with
  | nil => rfl
  | cons c cs ih =>
    rw [List.map_cons, h c (by simp), ih (fun x hx => h x (by simp [hx]))]

theorem mem_mapComma (c : Char) :
    ∀ l : Str, c ∈ l.map commaToSpace → c = ' ' ∨ c ∈ l := by
  intro l h
  rcases List.mem_map.mp h with ⟨a, hmem, ha⟩
  by_cases hac : a = ','
  · rw [hac, commaToSpace, if_pos rfl] at ha
    exact Or.inl ha.symm
  · rw [commaToSpace, if_neg hac] at ha
    exact Or.inr (ha ▸ hmem)

theorem comma_notMem_mapComma : ∀ l : Str, ',' ∉ l.map commaToSpace := by
  intro l h
  rcases List.mem_map.mp h with ⟨a, _, ha⟩
  by_cases hac : a = ','
  · rw [hac, commaToSpace, if_pos rfl] at ha
    exact absurd ha (by decide)
  · rw [commaToSpace, if_neg hac] at ha
    exact hac ha

theorem containsSub_single :
    ∀ (l : Str) (c : Char), containsSub l [c] = true ↔ c ∈ l := by
  intro l c
  induction l with
  | nil => simp [containsSub]
  | cons d ds ih =>
    rw [containsSub, Bool.or_eq_true, ih]
    simp only [startsWithStr, Bool.and_eq_true, decide_eq_true_eq, List.mem_cons]
    constructor
    · rintro (⟨h1, _⟩ | h1)
      · exact Or.inl h1.symm
      · exact Or.inr h1
    · rintro (h1 | h1)
      · exact Or.inl ⟨h1.symm, trivial⟩
      · exact Or.inr h1

theorem normalize_eq_clean (s : Str)
    (hHON : containsSub (s.map jsUpperChar) ['H', 'O', 'N'] = false)
    (hDR : containsSub (s.map jsUpperChar) ['D', 'R'] = false)
    (hPROF : containsSub (s.map jsUpperChar) ['P', 'R', 'O', 'F'] = false)
    (hENG : containsSub (s.map jsUpperChar) ['E', 'N', 'G'] = false)
    (hAMB : containsSub (s.map jsUpperChar) ['A', 'M', 'B'] = false)
    (hCPA : containsSub (s.map jsUpperChar) ['C', 'P', 'A'] = false)
    (hCOL : containsSub (s.map jsUpperChar) ['C', 'O', 'L'] = false)
    (hPar : ('(' : Char) ∉ s.map jsUpperChar) :
    normalizeNameForComparison s =
      trimWs (collapseWsAux false ((s.map jsUpperChar).map commaToSpace)) := by
  have hParC : containsSub (s.map jsUpperChar) ['('] = false := by
    rw [← Bool.not_eq_true]
    intro hb
    exact hPar ((containsSub_single _ _).mp hb)
  simp only [normalizeNameForComparison]
  rw [replaceFirst_self (matchToken ['H', 'O', 'N']) ['H', 'O', 'N']
      (fun x h => matchToken_startsWith _ x h) _ hHON,
    replaceFirst_self matchParen ['('] (fun x h => matchParen_startsWith x h) _ hParC,
    replaceFirst_self (matchToken ['D', 'R']) ['D', 'R']
      (fun x h => matchToken_startsWith _ x h) _ hDR,
    replaceFirst_self (matchToken ['P', 'R', 'O', 'F']) ['P', 'R', 'O', 'F']
      (fun x h => matchToken_startsWith _ x h) _ hPROF,
    replaceFirst_self (matchToken ['E', 'N', 'G']) ['E', 'N', 'G']
      (fun x h => matchToken_startsWith _ x h) _ hENG,
    replaceFirst_self (matchToken ['A', 'M', 'B']) ['A', 'M', 'B']
      (fun x h => matchToken_startsWith _ x h) _ hAMB,
    replaceFirst_self (matchToken ['C', 'P', 'A']) ['C', 'P', 'A']
      (fun x h => matchToken_startsWith _ x h) _ hCPA,
    replaceFirst_self matchColRtd ['C', 'O', 'L']
      (fun x h => matchColRtd_startsWith x h) _ hCOL]

/-- C8 counterexample: normalization is not idempotent on every input — the
title replaces delete only the first occurrence, so a second application of
the normalizer strips again (`HONHON` normalizes to `HON`, which normalizes
to the empty string). -/
theorem normalize_not_idempotent_cex :
    normalizeNameForComparison (normalizeNameForComparison "HONHON".data) ≠
      normalizeNameForComparison "HONHON".data ∧
    normalizeNameForComparison "HONHON".data = "HON".data ∧
    normalizeNameForComparison (normalizeNameForComparison "HONHON".data) = [] := by
  exact ⟨by decide, by decide, by decide⟩

/-- C8 (amended): the normalizer is idempotent on every input whose
uppercased form contains no occurrence of a title token (`HON`, `DR`,
`PROF`, `ENG`, `AMB`, `CPA`, `COL`) and no opening parenthesis — the spec's
"once title/punctuation are already stripped" reading. -/
theorem normalize_idempotent_amended (s : Str)
    (hHON : containsSub (s.map jsUpperChar) ['H', 'O', 'N'] = false)
    (hDR : containsSub (s.map jsUpperChar) ['D', 'R'] = false)
    (hPROF : containsSub (s.map jsUpperChar) ['P', 'R', 'O', 'F'] = false)
    (hENG : containsSub (s.map jsUpperChar) ['E', 'N', 'G'] = false)
    (hAMB : containsSub (s.map jsUpperChar) ['A', 'M', 'B'] = false)
    (hCPA : containsSub (s.map jsUpperChar) ['C', 'P', 'A'] = false)
    (hCOL : containsSub (s.map jsUpperChar) ['C', 'O', 'L'] = false)
    (hPar : ('(' : Char) ∉ s.map jsUpperChar) :
    normalizeNameForComparison (normalizeNameForComparison s) =
      normalizeNameForComparison s := by
  have hclean := normalize_eq_clean s hHON hDR hPROF hENG hAMB hCPA hCOL hPar
  set u : Str := s.map jsUpperChar with hu
  set z : Str := collapseWsAux false (u.map commaToSpace) with hz
  set t : Str := trimWs z with ht'
  have hmem_t : ∀ c : Char, c ∈ t → c = ' ' ∨ c ∈ u := by
    intro c hc
    rw [ht', trimWs] at hc
    have h1 := mem_dropWhile isJsSpace z c (mem_trimEnd _ c hc)
    rcases mem_collapse (u.map commaToSpace) false c h1 with h2 | h2
    · exact Or.inl h2
    · exact mem_mapComma c u h2
  have hUFt : ∀ c ∈ t, jsUpperChar c = c := by
    intro c hc
    rcases hmem_t c hc with h1 | h1
    · rw [h1]; decide
    · rw [hu] at h1
      rcases List.mem_map.mp h1 with ⟨a, _, ha⟩
      rw [← ha, jsUpperChar_idem]
  have hmapU : t.map jsUpperChar = t := map_eq_self_of t hUFt
  have hcommat : ∀ c ∈ t, c ≠ ',' := by
    intro c hc hcc
    subst hcc
    rw [ht', trimWs] at hc
    have h1 := mem_dropWhile isJsSpace z _ (mem_trimEnd _ _ hc)
    rcases mem_collapse (u.map commaToSpace) false _ h1 with h2 | h2
    · exact absurd h2 (by decide)
    · exact comma_notMem_mapComma _ h2
  have hmapC : t.map commaToSpace = t :=
    map_eq_self_of t (fun c hc => by rw [commaToSpace, if_neg (hcommat c hc)])
  have htokt : ∀ tok : Str, tok ≠ [] → (∀ c ∈ tok, isJsSpace c = false) →
      (∀ c ∈ tok, c ≠ ' ') → containsSub u tok = false → containsSub t tok = false := by
    intro tok hne hns hnsp hu0
    rw [← Bool.not_eq_true]
    intro hb
    rw [ht'] at hb
    have h1 : containsSub z tok = true := containsSub_trimWs z tok hb
    have h2 := containsSub_collapse (u.map commaToSpace) false tok hne hns h1
    have h3 := containsSub_mapComma hnsp u h2
    rw [hu0] at h3
    exact absurd h3 (by decide)
  have tHON := htokt ['H', 'O', 'N'] (by decide) (by decide) (by decide) hHON
  have tDR := htokt ['D', 'R'] (by decide) (by decide) (by decide) hDR
  have tPROF := htokt ['P', 'R', 'O', 'F'] (by decide) (by decide) (by decide) hPROF
  have tENG := htokt ['E', 'N', 'G'] (by decide) (by decide) (by decide) hENG
  have tAMB := htokt ['A', 'M', 'B'] (by decide) (by decide) (by decide) hAMB
  have tCPA := htokt ['C', 'P', 'A'] (by decide) (by decide) (by decide) hCPA
  have tCOL := htokt ['C', 'O', 'L'] (by decide) (by decide) (by decide) hCOL
  have tPar : ('(' : Char) ∉ t := by
    intro hc
    rcases hmem_t '(' hc with h1 | h1
    · exact absurd h1 (by decide)
    · rw [hu] at h1
      exact hPar h1
  have h2clean := normalize_eq_clean t (by rw [hmapU]; exact tHON)
    (by rw [hmapU]; exact tDR) (by rw [hmapU]; exact tPROF) (by rw [hmapU]; exact tENG)
    (by rw [hmapU]; exact tAMB) (by rw [hmapU]; exact tCPA) (by rw [hmapU]; exact tCOL)
    (by rw [hmapU]; exact tPar)
  have hwsz : wsOk z = true := by
    rw [hz]
    exact (collapse_invariant _).1
  have hwst : wsOk t = true := by
    rw [ht', trimWs]
    exact trimEnd_wsOk _ (dropWhile_wsOk _ _ hwsz)
  have hhnt : headNotWs t := by
    rw [ht', trimWs]
    exact headNotWs_trimEnd _ (headNotWs_dropWhile _)
  have htt : trimEnd t = t := by
    rw [ht', trimWs, trimEnd_idem]
  rw [hclean, h2clean, hmapU, hmapC, (collapse_fixed t hwst).1, trimWs,
    dropWhile_eq_self_of_headNotWs t hhnt, htt]

/-- Witness for the amended C8: idempotence at a concrete already-clean
name. -/
theorem normalize_idempotent_amended_witness :
    normalizeNameForComparison (normalizeNameForComparison "John Smith".data) =
      normalizeNameForComparison "John Smith".data :=
  normalize_idempotent_amended "John Smith".data (by decide) (by decide) (by decide)
    (by decide) (by decide) (by decide) (by decide) (by decide)
